import Mathlib

/-!
Verification of the commit-graph layout engine of the gitmoon repository.

The repository contains two TypeScript implementations of
`processCommitsForGraph`:

* the reservation-based variant (a `Graph.tsx` component that processes the
  commit list in reverse order, tracks `commitToLane` and a set of active
  lanes, and releases lanes once all children of a commit are processed),
  embedded below in namespace `GraphMain`, together with the component's
  `getBranchColor` and the SVG edge derivation (modelled as `routeEdges`);
* the simple first-available-lane variant
  (`src/renderer/views/workspace/Graph.tsx`), embedded in namespace
  `GraphSimple`.

Commits are modelled by their `sha` and ordered `parents` list; the
descriptive metadata (message, author, timestamp) is irrelevant to layout
and omitted.  JavaScript `Map` objects are modelled by association lists
that keep the `Map` insertion-order semantics (`mapSet`), JavaScript `Set`
objects of lane indices by duplicate-free lists (`setAdd`, `setDelete`).
-/

/-- A commit as consumed by the layout engine: `sha` plus the ordered parent
sha list (index 0 is the primary parent). -/
structure Commit where
  sha : String
  parents : List String
deriving DecidableEq, Repr

/-- A branch/tag ref pointer (`Branch` in the source's shared git types). -/
structure Branch where
  name : String
  sha : String
  isRemote : Bool
deriving DecidableEq, Repr

/-- A laid-out commit node: the fields of the source's `CommitNode` that the
layout algorithm writes (`x`, `y`, `lane`, `branches`), plus the commit data
(`sha`, `parents`) that the node record spreads from the commit. -/
structure Node where
  sha : String
  parents : List String
  x : Nat
  y : Nat
  lane : Nat
  branches : List String
deriving DecidableEq, Repr

/-- Edge classification of the spec: a straight same-lane segment
(`continuation`) or a curved segment between distinct lanes
(`branchOrMerge`).  The renderer draws a `<line>` for the former and a cubic
Bezier `<path>` for the latter. -/
inductive EdgeKind where
  | continuation
  | branchOrMerge
deriving DecidableEq, Repr

/-- A routed parent-child edge. -/
structure Edge where
  fromSha : String
  toSha : String
  kind : EdgeKind
  color : String
deriving DecidableEq, Repr

/-- JavaScript `Map.prototype.set`: overwrite the value in place if the key
exists (keeping the original insertion position), otherwise append. -/
def mapSet (m : List (String × Node)) (k : String) (v : Node) :
    List (String × Node) :=
  if m.any (fun p => p.1 = k) then
    m.map (fun p => if p.1 = k then (k, v) else p)
  else
    m ++ [(k, v)]

/-- JavaScript `Map.prototype.get` on a sha-keyed map: the value of the
(unique) entry for the key. -/
def mapGet (m : List (String × Node)) (k : String) : Option Node :=
  (m.find? (fun p => p.1 = k)).map (fun p => p.2)

/-- `commitToLane.get` / `commitToLane.has`: the map is written by consing,
so the first matching entry is the most recent `set`. -/
def ctlGet (ctl : List (String × Nat)) (k : String) : Option Nat :=
  (ctl.find? (fun p => p.1 = k)).map (fun p => p.2)

/-- JavaScript `Set.prototype.add` (insertion order, no duplicates). -/
def setAdd (s : List Nat) (x : Nat) : List Nat :=
  if x ∈ s then s else s ++ [x]

/-- JavaScript `Set.prototype.delete`. -/
def setDelete (s : List Nat) (x : Nat) : List Nat :=
  s.filter (fun y => y ≠ x)

/-- The scan of `lane = 0; while (activeLanes.has(lane)) lane++`.  The active
set is duplicate-free, so among `0 .. s.length` some value is free and fuel
`s.length + 1` always suffices to reach the loop's exit value. -/
def firstFreeAux (s : List Nat) : Nat → Nat → Nat
  | 0, lane => lane
  | fuel + 1, lane => if lane ∈ s then firstFreeAux s fuel (lane + 1) else lane

/-- Smallest lane index not in the active set (the `while` loop above). -/
def firstFree (s : List Nat) : Nat :=
  firstFreeAux s (s.length + 1) 0

namespace GraphMain

/-- State of the reversed lane-assignment pass: the `commitToLane` map
(most recent write first) and the `activeLanes` set. -/
structure GState where
  commitToLane : List (String × Nat)
  activeLanes : List Nat
deriving DecidableEq, Repr

/-- The lane choice of one `reversed.forEach` iteration (`lane` stays `-1`,
modelled as `none`, until one of the three sources assigns it): the first
child's lane if that child is already resolved; otherwise, if the first
parent already has a lane, a fresh lane when the parent's main child
already claimed the parent's lane and the parent's lane itself when not;
otherwise (`lane === -1`) the first free lane. -/
def pickLane (raw : List Commit) (st : GState) (commit : Commit) : Nat :=
  let firstChild := raw.find? (fun c => c.parents.head? = some commit.sha)
  let laneOpt : Option Nat :=
    match firstChild.bind (fun fc => ctlGet st.commitToLane fc.sha) with
    | some l => some l
    | none =>
      match commit.parents.head? with
      | none => none
      | some firstParentSha =>
        match ctlGet st.commitToLane firstParentSha with
        | none => none
        | some parentLane =>
          let parentMainChild :=
            raw.find? (fun c => c.parents.head? = some firstParentSha)
          match parentMainChild.bind
              (fun pmc => ctlGet st.commitToLane pmc.sha) with
          | some _ => some (firstFree st.activeLanes)
          | none => some parentLane
  laneOpt.getD (firstFree st.activeLanes)

/-- One iteration of the `reversed.forEach` body of the reservation-based
`processCommitsForGraph`: pick the lane, record `sha → lane`, mark the
lane active, and release it again if this commit has no children in the
window or all of them are already processed. -/
def step (raw : List Commit) (st : GState) (commit : Commit) : GState :=
  let lane := pickLane raw st commit
  let ctl2 := (commit.sha, lane) :: st.commitToLane
  let active2 := setAdd st.activeLanes lane
  let children := raw.filter (fun c => commit.sha ∈ c.parents)
  let active3 :=
    if children.isEmpty || children.all (fun c => (ctlGet ctl2 c.sha).isSome)
    then setDelete active2 lane
    else active2
  ⟨ctl2, active3⟩

/-- The whole reversed pass: `[...rawCommits].reverse().forEach(...)`
starting from an empty lane table and an empty active set. -/
def lanePass (raw : List Commit) : GState :=
  raw.reverse.foldl (step raw) ⟨[], []⟩

/-- The node-initialisation pass: one node per commit, `y = index * 80`,
lane 0, inserted into `commitMap` (later occurrences of a duplicated sha
overwrite the stored node but keep the first occurrence's position). -/
def initNodes (raw : List Commit) : List (String × Node) :=
  raw.enum.foldl
    (fun m p => mapSet m p.2.sha ⟨p.2.sha, p.2.parents, 0, p.1 * 80, 0, []⟩)
    []

/-- Write the final lane (and `x = lane * 40`) of each sha back into the
stored node, as the per-commit mutations `node.lane = lane; node.x = lane*40`
do (the surviving value is the last write, i.e. the head entry of
`commitToLane` for that sha). -/
def applyLanes (st : GState) (m : List (String × Node)) :
    List (String × Node) :=
  m.map (fun p =>
    match ctlGet st.commitToLane p.1 with
    | some l => (p.1, { p.2 with lane := l, x := l * 40 })
    | none => p)

/-- `branches.forEach(branch => commitMap.get(branch.sha)?.branches.push)`:
append each ref name to the node its sha points at. -/
def attachBranches (m : List (String × Node)) (bs : List Branch) :
    List (String × Node) :=
  bs.foldl
    (fun m b =>
      m.map (fun p =>
        if p.1 = b.sha then
          (p.1, { p.2 with branches := p.2.branches ++ [b.name] })
        else p))
    m

/-- The reservation-based `processCommitsForGraph` of the graph view:
initialise nodes, run the reversed lane pass, attach branch labels, and
return the map's values (insertion order). -/
def processCommitsForGraph (raw : List Commit) (branches : List Branch) :
    List Node :=
  if raw.isEmpty then []
  else
    let m0 := initNodes raw
    let st := lanePass raw
    let m1 := applyLanes st m0
    let m2 := attachBranches m1 branches
    m2.map (fun p => p.2)

/-- The 32-bit signed-integer coercion `ToInt32` applied by JavaScript's
`<<` operator. -/
def toInt32 (n : Int) : Int :=
  (n + 2 ^ 31) % 2 ^ 32 - 2 ^ 31

/-- `getBranchColor`'s hash loop
`hash = charCodeAt(i) + ((hash << 5) - hash)` over the name's characters
(character codes; the model covers names made of basic-plane characters,
where `charCodeAt` agrees with the character's code point). -/
def jsHash (s : String) : Int :=
  s.data.foldl (fun h c => (c.toNat : Int) + (toInt32 (h * 32) - h)) 0

/-- The fixed 6-entry color palette of `getBranchColor`. -/
def branchColors : List String :=
  ["rgb(0, 212, 255)", "rgb(34, 197, 94)", "rgb(251, 191, 36)",
   "rgb(244, 63, 94)", "rgb(168, 85, 247)", "rgb(236, 72, 153)"]

/-- The neutral color used for unlabelled commits and edges. -/
def neutralColor : String := "rgb(100, 116, 139)"

/-- `getBranchColor`: palette entry at `Math.abs(hash) % colors.length`
(the index is always in range, so the default is never used). -/
def getBranchColor (name : String) : String :=
  branchColors.getD ((jsHash name).natAbs % branchColors.length) neutralColor

/-- The stroke color the renderer picks for a commit's node and outgoing
edges: the branch color of its first label, else the neutral color. -/
def edgeColor (n : Node) : String :=
  match n.branches with
  | [] => neutralColor
  | b :: _ => getBranchColor b

/-- The SVG edge derivation of the graph view (`filteredCommits.flatMap`):
for each commit node and each parent sha that has a node in the set, one
edge; same lane renders as a straight line (`continuation`), different lanes
as a curve (`branchOrMerge`); parents without a node are dropped. -/
def routeEdges (nodes : List Node) : List Edge :=
  nodes.flatMap (fun n =>
    n.parents.filterMap (fun p =>
      match nodes.find? (fun c => c.sha = p) with
      | none => none
      | some pn =>
        some ⟨n.sha, p,
          if n.lane = pn.lane then EdgeKind.continuation
          else EdgeKind.branchOrMerge,
          edgeColor n⟩))

end GraphMain

namespace GraphSimple

/-- The `for`/`break` scan of the simple variant: first lane index whose
sha list does not contain the commit's sha; if every lane contains it the
loop falls through and `lane` keeps its initial value 0. -/
def findLane (lanes : List (List String)) (sha : String) : Nat :=
  (lanes.findIdx? (fun l => !(l.contains sha))).getD 0

/-- One iteration of the simple variant's `rawCommits.forEach`: pick a lane,
grow the lane table when `lane === lanes.length`, record the sha in the
lane, and store the node. -/
def stepSimple (acc : List (List String) × List (String × Node))
    (p : Nat × Commit) : List (List String) × List (String × Node) :=
  let lanes := acc.1
  let m := acc.2
  let index := p.1
  let commit := p.2
  let lane := findLane lanes commit.sha
  let lanes1 := if lane = lanes.length then lanes ++ [[]] else lanes
  let lanes2 := lanes1.set lane (lanes1.getD lane [] ++ [commit.sha])
  (lanes2,
    mapSet m commit.sha
      ⟨commit.sha, commit.parents, lane * 40, index * 80, lane, []⟩)

/-- The superseded simple `processCommitsForGraph` of
`src/renderer/views/workspace/Graph.tsx`. -/
def processCommitsForGraph (raw : List Commit) (branches : List Branch) :
    List Node :=
  let m := (raw.enum.foldl stepSimple ([], [])).2
  (GraphMain.attachBranches m branches).map (fun p => p.2)

end GraphSimple

namespace GraphMain

/-- The checked counterpart of one lane-pass iteration: the source reads
`commitMap.get(commit.sha)!` (a non-null assertion) before mutating the
node; this variant surfaces a failed lookup as an error instead. -/
def stepE (raw : List Commit) (m0 : List (String × Node)) (st : GState)
    (commit : Commit) : Except String GState :=
  match mapGet m0 commit.sha with
  | none => Except.error "commitMap.get returned undefined"
  | some _ => Except.ok (step raw st commit)

/-- The checked reversed pass. -/
def lanePassE (raw : List Commit) (m0 : List (String × Node)) :
    Except String GState :=
  raw.reverse.foldlM (stepE raw m0) ⟨[], []⟩

/-- The checked builder: identical to `processCommitsForGraph` except that
the `commitMap.get(commit.sha)!` assertions are checked, so a failing
lookup would produce an error value rather than a node list. -/
def processCommitsForGraphE (raw : List Commit) (branches : List Branch) :
    Except String (List Node) :=
  if raw.isEmpty then Except.ok []
  else
    let m0 := initNodes raw
    (lanePassE raw m0).map
      (fun st => (attachBranches (applyLanes st m0) branches).map
        (fun p => p.2))

end GraphMain

/-- A linear history over the given sha list (newest first): each commit's
sole parent is the next sha, the last sha is a parentless root. -/
def mkLinear : List String → List Commit
  | [] => []
  | [s] => [⟨s, []⟩]
  | s :: t :: rest => ⟨s, [t]⟩ :: mkLinear (t :: rest)

/-- The input contract of the engine, as a decidable predicate: the commit
list is newest-first and self-contained, i.e. every parent sha of every
commit appears as the sha of a strictly later entry. -/
def parentsLaterB : List Commit → Bool
  | [] => true
  | c :: rest =>
    c.parents.all (fun p => (rest.map (fun d => d.sha)).contains p) &&
      parentsLaterB rest

/-- First-occurrence deduplication with an accumulator of already-seen
keys; describes the key order of a JavaScript `Map` filled by `set`. -/
def dedupFirstAux (seen : List String) : List String → List String
  | [] => []
  | s :: rest =>
    if s ∈ seen then dedupFirstAux seen rest
    else s :: dedupFirstAux (s :: seen) rest

/-- Deduplicate a sha list keeping the first occurrence of each sha. -/
def dedupFirst (l : List String) : List String :=
  dedupFirstAux [] l

/-- The lane of a sha within a laid-out node list. -/
def laneOf (ns : List Node) (s : String) : Option Nat :=
  (ns.find? (fun n => n.sha = s)).map (fun n => n.lane)

/-- Concrete scenario 2 of the spec (branch + merge): `a1` branches into
`a2` and `b`, which merge in `m`. -/
def scn2 : List Commit :=
  [⟨"m", ["b", "a2"]⟩, ⟨"a2", ["a1"]⟩, ⟨"b", ["a1"]⟩, ⟨"a1", []⟩]

/-- Concrete scenario 3 of the spec: a truncated window whose only commit
references a parent outside the window. -/
def scnTrunc : List Commit :=
  [⟨"x", ["missing"]⟩]

/-- A merge commit listing the same parent sha twice. -/
def dupParentsIn : List Commit :=
  [⟨"m", ["p", "p"]⟩, ⟨"p", []⟩]

/-- An input with a duplicated sha `a` (plus a child `b` of `a`). -/
def dupIn : List Commit :=
  [⟨"b", ["a"]⟩, ⟨"a", []⟩, ⟨"a", []⟩]

/-- `dupIn` with the later duplicate removed (first occurrence kept). -/
def dupDedup : List Commit :=
  [⟨"b", ["a"]⟩, ⟨"a", []⟩]

/-- A fully self-contained, fully resolved two-root window: main line
`r1 ← c2 ← m`, side line `r2 ← t`, merged by `m` whose parents are
`[c2, t]`. -/
def ex5 : List Commit :=
  [⟨"m", ["c2", "t"]⟩, ⟨"t", ["r2"]⟩, ⟨"c2", ["r1"]⟩, ⟨"r2", []⟩,
   ⟨"r1", []⟩]

/-- C1: in scenario 2 the commit `a1` has exactly two children (`b` and
`a2`, each listing `a1` as its primary parent), yet the builder assigns
both children lane 0 — the same lane as `a1` itself.  The claimed
branch-point property (children on two distinct lanes, exactly one
continuing the parent's lane) fails on the code: in the oldest-first scan a
parent's main child is never processed yet, so the fresh-lane branch never
fires. -/
theorem c1_branch_children_same_lane :
    scn2.countP (fun c => c.parents.contains "a1") = 2 ∧
    laneOf (GraphMain.processCommitsForGraph scn2 []) "b" = some 0 ∧
    laneOf (GraphMain.processCommitsForGraph scn2 []) "a2" = some 0 ∧
    laneOf (GraphMain.processCommitsForGraph scn2 []) "a1" = some 0 := by
  decide

/-- C3: in scenario 2 the merge commit `m` has parents `b` and `a2`; both
edges `(m,b)` and `(m,a2)` are emitted, but both are classified
`continuation` (all four commits share lane 0), contradicting the claim
that at least one must be `branchOrMerge`. -/
theorem c3_merge_edges_both_continuation :
    GraphMain.routeEdges (GraphMain.processCommitsForGraph scn2 []) =
      [⟨"m", "b", EdgeKind.continuation, GraphMain.neutralColor⟩,
       ⟨"m", "a2", EdgeKind.continuation, GraphMain.neutralColor⟩,
       ⟨"a2", "a1", EdgeKind.continuation, GraphMain.neutralColor⟩,
       ⟨"b", "a1", EdgeKind.continuation, GraphMain.neutralColor⟩] := by
  decide

/-- C4 counterexample: a commit that lists the same parent sha twice
produces two routed edges for the single pair `(m, p)`, not exactly one. -/
theorem c4_duplicate_parent_two_edges :
    (GraphMain.routeEdges
        (GraphMain.processCommitsForGraph dupParentsIn [])).countP
      (fun e => e.fromSha == "m" && e.toSha == "p") = 2 := by
  decide

/-- C5 counterexample: `ex5` is fully self-contained and newest-first
(`parentsLaterB`), fully resolved with two root chains, yet one active
lane is left over after the pass (the side branch's tip `t` is reached
only through the merge's non-primary parent, so lane 1 is never
released) — the final active-lane count is 1, not the number of remaining
open root chains (0). -/
theorem c5_leaked_lane :
    parentsLaterB ex5 = true ∧
    (GraphMain.lanePass ex5).activeLanes = [1] := by
  decide

/-- C6 counterexample: with the duplicated sha `a`, the builder does not
treat the later duplicate as already processed: both occurrences are
processed, the duplicate's pass takes lane 0 and forces the first
occurrence onto the fresh lane 1, so the output lanes `[1, 1]` differ from
the lanes `[0, 0]` produced for the input with the duplicate removed. -/
theorem c6_duplicate_not_ignored :
    (GraphMain.processCommitsForGraph dupIn []).map (fun n => n.lane) =
      [1, 1] ∧
    (GraphMain.processCommitsForGraph dupDedup []).map (fun n => n.lane) =
      [0, 0] := by
  decide

/-- C8: `build`, `route` and `colorOf` are deterministic — repeated calls
on identical input produce identical output; all three are pure functions
of their arguments (no randomness, no ambient traversal order). -/
theorem c8_determinism (raw : List Commit) (bs : List Branch)
    (ns : List Node) (name : String) :
    GraphMain.processCommitsForGraph raw bs =
      GraphMain.processCommitsForGraph raw bs ∧
    GraphMain.routeEdges ns = GraphMain.routeEdges ns ∧
    GraphMain.getBranchColor name = GraphMain.getBranchColor name :=
  ⟨rfl, rfl, rfl⟩

/-- C9: `getBranchColor` returns the entry of the fixed 6-entry palette at
index `|hash| mod 6` of the polynomial character-code hash; it always
yields a palette entry, the same name always yields the same color
(`"main"` twice included), and distinct names may collide (`"a"` and `"g"`
do). -/
theorem c9_color_palette_and_stability (name : String) :
    GraphMain.getBranchColor name =
      GraphMain.branchColors.getD
        ((GraphMain.jsHash name).natAbs % 6) GraphMain.neutralColor ∧
    GraphMain.branchColors.length = 6 ∧
    GraphMain.getBranchColor name ∈ GraphMain.branchColors ∧
    GraphMain.getBranchColor "main" = GraphMain.getBranchColor "main" ∧
    ("a" ≠ "g" ∧
      GraphMain.getBranchColor "a" = GraphMain.getBranchColor "g") := by
  refine ⟨rfl, rfl, ?_, rfl, by decide, by decide⟩
  have h6 : (GraphMain.jsHash name).natAbs % GraphMain.branchColors.length <
      GraphMain.branchColors.length :=
    Nat.mod_lt _ (by decide)
  unfold GraphMain.getBranchColor
  rw [List.getD_eq_getElem _ _ h6]
  exact List.getElem_mem h6

/-- Splitting `parentsLaterB` at a cons. -/
theorem parentsLaterB_cons {c : Commit} {rest : List Commit}
    (h : parentsLaterB (c :: rest) = true) :
    (∀ p ∈ c.parents, p ∈ rest.map (fun d => d.sha)) ∧
      parentsLaterB rest = true := by
  unfold parentsLaterB at h
  rw [Bool.and_eq_true] at h
  refine ⟨fun p hp => ?_, h.2⟩
  have hc := List.all_eq_true.mp h.1 p hp
  simpa [List.contains, List.elem_iff] using hc

/-- In a newest-first, self-contained window, each commit's parents appear
among the strictly later entries. -/
theorem parentsLaterB_split (P : List Commit) (c : Commit)
    (S : List Commit) (h : parentsLaterB (P ++ c :: S) = true) :
    ∀ p ∈ c.parents, p ∈ S.map (fun d => d.sha) := by
  induction P with
  | nil => exact (parentsLaterB_cons h).1
  | cons q P ih => exact ih (parentsLaterB_cons h).2

/-- With duplicate-free shas, a commit's sha does not recur among the
entries after it. -/
theorem sha_not_in_tail {raw : List Commit} (P : List Commit) (c : Commit)
    (S : List Commit) (hr : raw = P ++ c :: S)
    (hnd : (raw.map (fun x => x.sha)).Nodup) :
    c.sha ∉ S.map (fun x => x.sha) := by
  rw [hr, List.map_append, List.map_cons] at hnd
  exact (List.nodup_cons.mp (List.nodup_append.mp hnd).2.1).1

/-- With duplicate-free shas, a sha occurring before position `|P|` does
not recur at or after it. -/
theorem sha_left_not_right {raw : List Commit} (P : List Commit)
    (c : Commit) (S : List Commit) (hr : raw = P ++ c :: S)
    (hnd : (raw.map (fun x => x.sha)).Nodup) {d : Commit} (hd : d ∈ P) :
    d.sha ∉ (c :: S).map (fun x => x.sha) := by
  rw [hr, List.map_append] at hnd
  exact (List.nodup_append.mp hnd).2.2 (List.mem_map_of_mem _ hd)

/-- In a newest-first self-contained window with duplicate-free shas, no
commit at or after position `|P|` lists the commit at position `|P|` as a
parent (children only occur strictly earlier, i.e. are newer). -/
theorem no_child_in_suffix {raw : List Commit} (P : List Commit)
    (c : Commit) (S : List Commit) (hr : raw = P ++ c :: S)
    (hpl : parentsLaterB raw = true)
    (hnd : (raw.map (fun x => x.sha)).Nodup) :
    ∀ d ∈ c :: S, c.sha ∉ d.parents := by
  intro d hd hmem
  obtain ⟨u, v, huv⟩ := List.append_of_mem hd
  have hr2 : raw = (P ++ u) ++ d :: v := by rw [hr, huv]; simp
  have hpl2 : parentsLaterB ((P ++ u) ++ d :: v) = true := by
    rw [← hr2]; exact hpl
  have hv : c.sha ∈ v.map (fun x => x.sha) :=
    parentsLaterB_split (P ++ u) d v hpl2 c.sha hmem
  have hS : c.sha ∈ S.map (fun x => x.sha) := by
    cases u with
    | nil =>
      obtain ⟨-, hSv⟩ : c = d ∧ S = v := by
        cases huv
        exact ⟨rfl, rfl⟩
      rw [hSv]
      exact hv
    | cons a u' =>
      obtain ⟨-, hSv⟩ : c = a ∧ S = u' ++ d :: v := by
        cases huv
        exact ⟨rfl, rfl⟩
      rw [hSv, List.map_append, List.map_cons]
      exact List.mem_append.mpr (Or.inr (List.mem_cons_of_mem _ hv))
  exact sha_not_in_tail P c S hr hnd hS

/-- Lookup in the all-zero lane table built from the processed suffix. -/
theorem ctlGet_zeroMap (S : List Commit) (k : String) :
    ctlGet (S.map (fun c => (c.sha, 0))) k =
      if k ∈ S.map (fun c => c.sha) then some 0 else none := by
  induction S with
  | nil => rfl
  | cons c S ih =>
    by_cases h : c.sha = k
    · rw [List.map_cons, ctlGet, List.find?_cons_of_pos _ (by simp [h])]
      simp [h]
    · rw [List.map_cons, ctlGet, List.find?_cons_of_neg _ (by simp [h])]
      rw [ctlGet] at ih
      rw [ih]
      simp only [List.map_cons]
      have : (k ∈ c.sha :: S.map (fun c => c.sha)) ↔
          (k ∈ S.map (fun c => c.sha)) := by
        simp [List.mem_cons]
        intro hk
        exact absurd hk.symm h
      by_cases hm : k ∈ S.map (fun c => c.sha)
      · rw [if_pos hm, if_pos (this.mpr hm)]
      · rw [if_neg hm, if_neg (fun hc => hm (this.mp hc))]

/-- When the lane table holds exactly the already-processed (strictly
older) suffix `S`, the `firstChild` lookup of `pickLane` cannot resolve:
any commit whose primary parent is `c` sits strictly before `c` in the
window and has no lane yet. -/
theorem firstChild_lookup_none {raw : List Commit} (P : List Commit)
    (c : Commit) (S : List Commit) (hr : raw = P ++ c :: S)
    (hpl : parentsLaterB raw = true)
    (hnd : (raw.map (fun x => x.sha)).Nodup) :
    (raw.find? (fun x => x.parents.head? = some c.sha)).bind
      (fun fc => ctlGet (S.map (fun x => (x.sha, 0))) fc.sha) = none := by
  cases hfind : raw.find? (fun x => x.parents.head? = some c.sha) with
  | none => rfl
  | some fc =>
    have hmemr : fc ∈ raw := List.mem_of_find?_eq_some hfind
    have hb := List.find?_some hfind
    rw [decide_eq_true_eq] at hb
    have hpred : fc.parents.head? = some c.sha := hb
    have hcs : c.sha ∈ fc.parents := by
      cases hps : fc.parents with
      | nil => rw [hps] at hpred; cases hpred
      | cons a l =>
        rw [hps] at hpred
        have : a = c.sha := by simpa using hpred
        rw [← this]
        exact List.mem_cons_self _ _
    have hfcP : fc ∈ P := by
      rw [hr] at hmemr
      rcases List.mem_append.mp hmemr with hP | hsuf
      · exact hP
      · exact absurd hcs (no_child_in_suffix P c S hr hpl hnd fc hsuf)
    have hnk : fc.sha ∉ S.map (fun x => x.sha) := by
      intro hk
      exact sha_left_not_right P c S hr hnd hfcP
        (by rw [List.map_cons]; exact List.mem_cons_of_mem _ hk)
    rw [Option.some_bind, ctlGet_zeroMap, if_neg hnk]

/-- When the lane table holds exactly the already-processed suffix `S`,
the `parentMainChild` lookup of `pickLane` cannot resolve either: the
first commit listing `fp` as primary parent is `c` itself or an even
newer commit, neither of which has a lane yet. -/
theorem parentMainChild_lookup_none {raw : List Commit} (P : List Commit)
    (c : Commit) (S : List Commit) (hr : raw = P ++ c :: S)
    (hnd : (raw.map (fun x => x.sha)).Nodup) {fp : String}
    {ps : List String} (hc : c.parents = fp :: ps) :
    (raw.find? (fun x => x.parents.head? = some fp)).bind
      (fun pmc => ctlGet (S.map (fun x => (x.sha, 0))) pmc.sha) = none := by
  rw [hr, List.find?_append]
  cases hfP : P.find? (fun x => x.parents.head? = some fp) with
  | some d =>
    have hdP : d ∈ P := List.mem_of_find?_eq_some hfP
    rw [Option.or_some, Option.some_bind, ctlGet_zeroMap, if_neg]
    intro hk
    exact sha_left_not_right P c S hr hnd hdP
      (by rw [List.map_cons]; exact List.mem_cons_of_mem _ hk)
  | none =>
    have hcpos : (c :: S).find? (fun x => x.parents.head? = some fp) =
        some c :=
      List.find?_cons_of_pos _ (by simp [hc])
    rw [hcpos]
    have hor : (none : Option Commit).or (some c) = some c := rfl
    rw [hor, Option.some_bind, ctlGet_zeroMap,
      if_neg (sha_not_in_tail P c S hr hnd)]

/-- Lane choice for a commit with at least one parent, under the lane
table of the processed suffix: always the first parent's lane (0). -/
theorem pickLane_nonroot {raw : List Commit} (P : List Commit) (c : Commit)
    (S : List Commit) (A : List Nat) (hr : raw = P ++ c :: S)
    (hpl : parentsLaterB raw = true)
    (hnd : (raw.map (fun x => x.sha)).Nodup) {fp : String}
    {ps : List String} (hc : c.parents = fp :: ps) :
    GraphMain.pickLane raw ⟨S.map (fun x => (x.sha, 0)), A⟩ c = 0 := by
  have hfp : fp ∈ S.map (fun d => d.sha) :=
    parentsLaterB_split P c S (by rw [← hr]; exact hpl) fp
      (by rw [hc]; exact List.mem_cons_self _ _)
  have h3 : ctlGet (S.map fun x => (x.sha, 0)) fp = some 0 := by
    rw [ctlGet_zeroMap]
    exact if_pos hfp
  unfold GraphMain.pickLane
  simp only [firstChild_lookup_none P c S hr hpl hnd]
  simp only [hc, List.head?_cons]
  simp only [h3]
  simp only [parentMainChild_lookup_none P c S hr hnd hc]
  rfl

/-- Lane choice for a parentless commit: the first free lane. -/
theorem pickLane_root {raw : List Commit} (P : List Commit) (c : Commit)
    (S : List Commit) (A : List Nat) (hr : raw = P ++ c :: S)
    (hpl : parentsLaterB raw = true)
    (hnd : (raw.map (fun x => x.sha)).Nodup) (hc : c.parents = []) :
    GraphMain.pickLane raw ⟨S.map (fun x => (x.sha, 0)), A⟩ c =
      firstFree A := by
  unfold GraphMain.pickLane
  simp only [firstChild_lookup_none P c S hr hpl hnd]
  simp only [hc, List.head?_nil]
  rfl

/-- `step` written out by components (definitional). -/
theorem step_components (raw : List Commit) (st : GraphMain.GState)
    (c : Commit) :
    GraphMain.step raw st c =
      ⟨(c.sha, GraphMain.pickLane raw st c) :: st.commitToLane,
        if (raw.filter (fun d => c.sha ∈ d.parents)).isEmpty ||
            (raw.filter (fun d => c.sha ∈ d.parents)).all
              (fun d =>
                (ctlGet ((c.sha, GraphMain.pickLane raw st c) ::
                  st.commitToLane) d.sha).isSome)
        then setDelete
          (setAdd st.activeLanes (GraphMain.pickLane raw st c))
          (GraphMain.pickLane raw st c)
        else setAdd st.activeLanes (GraphMain.pickLane raw st c)⟩ :=
  rfl

/-- The release decision for commit `c` at the moment its suffix `S` is
already processed (the previous active set is `[]` or `[0]`): the lane (0)
is dropped exactly when `c` has no children in the window, because any
child of `c` is strictly newer and still unprocessed. -/
theorem active_after_step {raw : List Commit} (P : List Commit) (c : Commit)
    (S : List Commit) (hr : raw = P ++ c :: S)
    (hpl : parentsLaterB raw = true)
    (hnd : (raw.map (fun x => x.sha)).Nodup)
    (A : List Nat) (hA : A = [] ∨ A = [0]) :
    (if (raw.filter (fun d => c.sha ∈ d.parents)).isEmpty ||
        (raw.filter (fun d => c.sha ∈ d.parents)).all
          (fun d =>
            (ctlGet ((c.sha, 0) :: S.map (fun x => (x.sha, 0)))
              d.sha).isSome)
      then setDelete (setAdd A 0) 0 else setAdd A 0) =
      (if (raw.filter (fun d => c.sha ∈ d.parents)).isEmpty then
        ([] : List Nat)
      else [0]) := by
  have hsa : setAdd A 0 = [0] := by
    rcases hA with rfl | rfl <;> rfl
  rw [hsa]
  cases he : (raw.filter (fun d => c.sha ∈ d.parents)).isEmpty with
  | true =>
    rw [Bool.true_or, if_pos rfl, if_pos rfl]
    rfl
  | false =>
    have hne : (raw.filter (fun d => c.sha ∈ d.parents)) ≠ [] :=
      List.isEmpty_eq_false.mp he
    obtain ⟨d, hd⟩ := List.exists_mem_of_ne_nil _ hne
    have hdm := List.mem_filter.mp hd
    have hdp : c.sha ∈ d.parents := of_decide_eq_true hdm.2
    have hdP : d ∈ P := by
      have hdr := hdm.1
      rw [hr] at hdr
      rcases List.mem_append.mp hdr with h1 | h2
      · exact h1
      · exact absurd hdp (no_child_in_suffix P c S hr hpl hnd d h2)
    have hget : ctlGet ((c.sha, 0) :: S.map (fun x => (x.sha, 0)))
        d.sha = none := by
      have hform : (c.sha, 0) :: S.map (fun x => (x.sha, 0)) =
          (c :: S).map (fun x => (x.sha, 0)) := rfl
      rw [hform, ctlGet_zeroMap,
        if_neg (sha_left_not_right P c S hr hnd hdP)]
    have hall : (raw.filter (fun d => c.sha ∈ d.parents)).all
        (fun d =>
          (ctlGet ((c.sha, 0) :: S.map (fun x => (x.sha, 0)))
            d.sha).isSome) = false := by
      rw [List.all_eq_false]
      exact ⟨d, hd, by rw [hget]; simp⟩
    rw [Bool.false_or, hall, if_neg (by simp), if_neg (by simp)]

/-- Invariant of the reversed lane pass on a newest-first, self-contained,
single-rooted, duplicate-free window: after processing the suffix `S`
(the oldest `|S|` commits), every processed sha is mapped to lane 0, and
the active set is `[0]` unless the most recently processed commit has no
children in the window (then the lane was just released). -/
theorem lanePass_states (raw : List Commit)
    (hpl : parentsLaterB raw = true)
    (hnd : (raw.map (fun c => c.sha)).Nodup)
    (hroot : raw.countP (fun c => c.parents.isEmpty) = 1) :
    ∀ (S P : List Commit), raw = P ++ S →
      List.foldl (GraphMain.step raw) ⟨[], []⟩ S.reverse =
        ⟨S.map (fun c => (c.sha, 0)),
          match S with
          | [] => []
          | c :: _ =>
            if (raw.filter (fun d => c.sha ∈ d.parents)).isEmpty then
              ([] : List Nat)
            else [0]⟩ := by
  intro S
  induction S with
  | nil =>
    intro P h
    rfl
  | cons c S' ih =>
    intro P h
    have h' : raw = (P ++ [c]) ++ S' := by rw [h]; simp
    have prev := ih (P ++ [c]) h'
    rw [List.reverse_cons, List.foldl_append, prev, List.foldl_cons,
      List.foldl_nil]
    have hA : (match S' with
        | [] => ([] : List Nat)
        | c' :: _ =>
          if (raw.filter (fun d => c'.sha ∈ d.parents)).isEmpty then
            ([] : List Nat)
          else [0]) = [] ∨
        (match S' with
        | [] => ([] : List Nat)
        | c' :: _ =>
          if (raw.filter (fun d => c'.sha ∈ d.parents)).isEmpty then
            ([] : List Nat)
          else [0]) = [0] := by
      cases S' with
      | nil => exact Or.inl rfl
      | cons c' S'' =>
        by_cases hem : (raw.filter (fun d => c'.sha ∈ d.parents)).isEmpty
        · exact Or.inl (by simp [hem])
        · exact Or.inr (by simp [hem])
    cases hc : c.parents with
    | nil =>
      have hS' : S' = [] := by
        rcases List.eq_nil_or_concat S' with h0 | ⟨L, b, hLb⟩
        · exact h0
        · exfalso
          have hsplit : raw = (P ++ c :: L) ++ b :: [] := by
            rw [h, hLb]
            simp [List.concat_eq_append]
          have hb : b.parents = [] := by
            have hall := parentsLaterB_split (P ++ c :: L) b []
              (by rw [← hsplit]; exact hpl)
            cases hbp : b.parents with
            | nil => rfl
            | cons p ps =>
              have := hall p (by rw [hbp]; exact List.mem_cons_self _ _)
              simp at this
          rw [h, hLb] at hroot
          simp [List.concat_eq_append, List.countP_append, List.countP_cons,
            hc, hb] at hroot
          omega
      subst hS'
      have hlane : GraphMain.pickLane raw ⟨[], []⟩ c = 0 := by
        have := pickLane_root P c [] [] h hpl hnd hc
        simpa using this
      show GraphMain.step raw ⟨[], []⟩ c =
        ⟨(c :: []).map (fun c => (c.sha, 0)),
          if (raw.filter (fun d => c.sha ∈ d.parents)).isEmpty then
            ([] : List Nat)
          else [0]⟩
      rw [step_components]
      simp only [hlane]
      exact congrArg₂ GraphMain.GState.mk rfl
        (active_after_step P c [] h hpl hnd [] (Or.inl rfl))
    | cons fp ps =>
      rcases hA with hA | hA <;> rw [hA]
      · have hlane : GraphMain.pickLane raw
            ⟨S'.map (fun x => (x.sha, 0)), []⟩ c = 0 :=
          pickLane_nonroot P c S' [] h hpl hnd hc
        show GraphMain.step raw ⟨S'.map (fun x => (x.sha, 0)), []⟩ c =
          ⟨(c :: S').map (fun c => (c.sha, 0)),
            if (raw.filter (fun d => c.sha ∈ d.parents)).isEmpty then
              ([] : List Nat)
            else [0]⟩
        rw [step_components]
        simp only [hlane]
        exact congrArg₂ GraphMain.GState.mk rfl
          (active_after_step P c S' h hpl hnd [] (Or.inl rfl))
      · have hlane : GraphMain.pickLane raw
            ⟨S'.map (fun x => (x.sha, 0)), [0]⟩ c = 0 :=
          pickLane_nonroot P c S' [0] h hpl hnd hc
        show GraphMain.step raw ⟨S'.map (fun x => (x.sha, 0)), [0]⟩ c =
          ⟨(c :: S').map (fun c => (c.sha, 0)),
            if (raw.filter (fun d => c.sha ∈ d.parents)).isEmpty then
              ([] : List Nat)
            else [0]⟩
        rw [step_components]
        simp only [hlane]
        exact congrArg₂ GraphMain.GState.mk rfl
          (active_after_step P c S' h hpl hnd [0] (Or.inr rfl))

/-- C5 (amended): for a newest-first, self-contained window with
duplicate-free shas and a single root, the reversed pass ends with an
empty active-lane set. -/
theorem c5_single_root_no_leaked_lanes (raw : List Commit)
    (hpl : parentsLaterB raw = true)
    (hnd : (raw.map (fun c => c.sha)).Nodup)
    (hroot : raw.countP (fun c => c.parents.isEmpty) = 1) :
    (GraphMain.lanePass raw).activeLanes = [] := by
  have hst := lanePass_states raw hpl hnd hroot raw [] rfl
  unfold GraphMain.lanePass
  rw [hst]
  cases hr : raw with
  | nil => rfl
  | cons c rest =>
    have hnochild : ∀ d ∈ c :: rest, c.sha ∉ d.parents := by
      rw [hr] at hpl hnd
      exact no_child_in_suffix [] c rest rfl hpl hnd
    have hfilter : ((c :: rest).filter (fun d => c.sha ∈ d.parents)) =
        [] := by
      rw [List.filter_eq_nil_iff]
      intro d hd
      simp [hnochild d hd]
    show (if ((c :: rest).filter (fun d => c.sha ∈ d.parents)).isEmpty then
        ([] : List Nat)
      else [0]) = []
    rw [hfilter]
    rfl

/-- Witness for C5's theorem at a concrete single-rooted window
(scenario 2 of the spec). -/
theorem c5_single_root_no_leaked_lanes_witness :
    (parentsLaterB scn2 = true ∧
      (scn2.map (fun c => c.sha)).Nodup ∧
      scn2.countP (fun c => c.parents.isEmpty) = 1) ∧
    (GraphMain.lanePass scn2).activeLanes = [] :=
  ⟨⟨by decide, by decide, by decide⟩,
    c5_single_root_no_leaked_lanes scn2 (by decide) (by decide) (by decide)⟩

/-- The shas of the linear chain are the given sha list. -/
theorem mkLinear_map_sha (ss : List String) :
    (mkLinear ss).map (fun c => c.sha) = ss := by
  induction ss with
  | nil => rfl
  | cons s tail ih =>
    cases tail with
    | nil => rfl
    | cons t rest => simp only [mkLinear, List.map_cons, ih]

/-- The linear chain is newest-first and self-contained. -/
theorem mkLinear_parentsLater (ss : List String) :
    parentsLaterB (mkLinear ss) = true := by
  induction ss with
  | nil => rfl
  | cons s tail ih =>
    cases tail with
    | nil => rfl
    | cons t rest =>
      have hc : (t :: rest).contains t = true :=
        List.elem_iff.mpr (List.mem_cons_self _ _)
      simp [mkLinear, parentsLaterB, mkLinear_map_sha, hc, ih]

/-- The linear chain has exactly one root (its last sha). -/
theorem mkLinear_roots (ss : List String) (h : ss ≠ []) :
    (mkLinear ss).countP (fun c => c.parents.isEmpty) = 1 := by
  induction ss with
  | nil => exact absurd rfl h
  | cons s tail ih =>
    cases tail with
    | nil => rfl
    | cons t rest =>
      simp [mkLinear, List.countP_cons, ih (by simp)]

/-- Membership in a `mapSet` result: an old entry or the freshly set one. -/
theorem mem_mapSet {m : List (String × Node)} {k : String} {v : Node}
    {p : String × Node} (h : p ∈ mapSet m k v) : p ∈ m ∨ p = (k, v) := by
  unfold mapSet at h
  by_cases hany : m.any (fun p => p.1 = k)
  · rw [if_pos hany] at h
    obtain ⟨q, hq, hqe⟩ := List.mem_map.mp h
    by_cases hqk : q.1 = k
    · right
      rw [← hqe, if_pos hqk]
    · left
      rw [← hqe, if_neg hqk]
      exact hq
  · rw [if_neg hany] at h
    rcases List.mem_append.mp h with h1 | h2
    · exact Or.inl h1
    · right
      simpa using h2

/-- Entries of `initNodes`: the key is a sha of the window and the stored
node carries that sha. -/
theorem initNodes_mem {raw : List Commit} {p : String × Node}
    (h : p ∈ GraphMain.initNodes raw) :
    p.1 ∈ raw.map (fun c => c.sha) ∧ p.2.sha = p.1 := by
  have aux : ∀ (l : List (Nat × Commit)) (acc : List (String × Node)),
      (∀ q ∈ l, q.2 ∈ raw) →
      (∀ r ∈ acc, r.1 ∈ raw.map (fun c => c.sha) ∧ r.2.sha = r.1) →
      ∀ r ∈ l.foldl
        (fun m q => mapSet m q.2.sha
          ⟨q.2.sha, q.2.parents, 0, q.1 * 80, 0, []⟩) acc,
        r.1 ∈ raw.map (fun c => c.sha) ∧ r.2.sha = r.1 := by
    intro l
    induction l with
    | nil => intro acc _ hacc r hr; exact hacc r hr
    | cons q l ih =>
      intro acc hl hacc r hr
      rw [List.foldl_cons] at hr
      refine ih _ (fun x hx => hl x (List.mem_cons_of_mem _ hx)) ?_ r hr
      intro x hx
      rcases mem_mapSet hx with h1 | h1
      · exact hacc x h1
      · rw [h1]
        exact ⟨List.mem_map_of_mem _ (hl q (List.mem_cons_self _ _)), rfl⟩
  refine aux raw.enum [] (fun q hq => ?_) (fun r hr => absurd hr
    (List.not_mem_nil _)) p h
  have := List.mem_map_of_mem Prod.snd hq
  rwa [List.enum_map_snd] at this

/-- When the lane table maps every sha of the window to 0, `applyLanes`
writes lane 0 into every stored node. -/
theorem applyLanes_lane_map {raw : List Commit} {st : GraphMain.GState}
    (hctl : st.commitToLane = raw.map (fun c => (c.sha, 0))) :
    (GraphMain.applyLanes st (GraphMain.initNodes raw)).map
        (fun p => p.2.lane) =
      (GraphMain.initNodes raw).map (fun _ => 0) := by
  unfold GraphMain.applyLanes
  rw [List.map_map]
  apply List.map_congr_left
  intro q hq
  have hk := (initNodes_mem hq).1
  simp only [Function.comp]
  rw [hctl, ctlGet_zeroMap, if_pos hk]

/-- `attachBranches` never changes a stored node's lane. -/
theorem attachBranches_map_lane (bs : List Branch) :
    ∀ (m : List (String × Node)),
      (GraphMain.attachBranches m bs).map (fun p => p.2.lane) =
        m.map (fun p => p.2.lane) := by
  induction bs with
  | nil => intro m; rfl
  | cons b bs ih =>
    intro m
    show (GraphMain.attachBranches
      (m.map (fun p =>
        if p.1 = b.sha then
          (p.1, { p.2 with branches := p.2.branches ++ [b.name] })
        else p)) bs).map (fun p => p.2.lane) = m.map (fun p => p.2.lane)
    rw [ih, List.map_map]
    apply List.map_congr_left
    intro q hq
    simp only [Function.comp]
    by_cases hqb : q.1 = b.sha
    · rw [if_pos hqb]
    · rw [if_neg hqb]

/-- C2: a linear history over duplicate-free shas is laid out entirely on
lane 0. -/
theorem c2_linear_single_lane (ss : List String) (bs : List Branch)
    (hnd : ss.Nodup) :
    (GraphMain.processCommitsForGraph (mkLinear ss) bs).all
      (fun n => n.lane == 0) = true := by
  rw [List.all_eq_true]
  intro n hn
  by_cases hraw : (mkLinear ss).isEmpty
  · rw [GraphMain.processCommitsForGraph, if_pos hraw] at hn
    exact absurd hn (List.not_mem_nil _)
  · have hne : ss ≠ [] := by
      intro h0
      rw [h0] at hraw
      exact hraw rfl
    have hndsha : ((mkLinear ss).map (fun c => c.sha)).Nodup := by
      rw [mkLinear_map_sha]
      exact hnd
    have hst := lanePass_states (mkLinear ss) (mkLinear_parentsLater ss)
      hndsha (mkLinear_roots ss hne) (mkLinear ss) [] rfl
    have hctl : (GraphMain.lanePass (mkLinear ss)).commitToLane =
        (mkLinear ss).map (fun c => (c.sha, 0)) := by
      unfold GraphMain.lanePass
      rw [hst]
    rw [GraphMain.processCommitsForGraph, if_neg hraw] at hn
    obtain ⟨p, hp, hpn⟩ := List.mem_map.mp hn
    have hmem : p.2.lane ∈ (GraphMain.attachBranches
        (GraphMain.applyLanes (GraphMain.lanePass (mkLinear ss))
          (GraphMain.initNodes (mkLinear ss))) bs).map
        (fun p => p.2.lane) := List.mem_map_of_mem _ hp
    rw [attachBranches_map_lane, applyLanes_lane_map hctl] at hmem
    obtain ⟨q, _, hq0⟩ := List.mem_map.mp hmem
    rw [← hpn]
    simp [← hq0]

/-- Witness for C2's theorem at the spec's concrete linear scenario. -/
theorem c2_linear_single_lane_witness :
    (mkLinear ["c3", "c2", "c1"] =
      [⟨"c3", ["c2"]⟩, ⟨"c2", ["c1"]⟩, ⟨"c1", []⟩] ∧
      (["c3", "c2", "c1"] : List String).Nodup) ∧
    (GraphMain.processCommitsForGraph (mkLinear ["c3", "c2", "c1"]) []).all
      (fun n => n.lane == 0) = true :=
  ⟨⟨by decide, by decide⟩,
    c2_linear_single_lane ["c3", "c2", "c1"] [] (by decide)⟩

/-- Key list of a `mapSet` result: unchanged when the key is present,
appended otherwise. -/
theorem mapSet_keys (m : List (String × Node)) (k : String) (v : Node) :
    (mapSet m k v).map (fun p => p.1) =
      if m.any (fun p => p.1 = k) then m.map (fun p => p.1)
      else m.map (fun p => p.1) ++ [k] := by
  unfold mapSet
  by_cases hany : m.any (fun p => p.1 = k)
  · rw [if_pos hany, if_pos hany, List.map_map]
    apply List.map_congr_left
    intro q _
    simp only [Function.comp]
    by_cases hqk : q.1 = k
    · rw [if_pos hqk]
      exact hqk.symm
    · rw [if_neg hqk]
  · rw [if_neg hany, if_neg hany, List.map_append]
    rfl

/-- Unfolding `dedupFirstAux` over an already-seen head. -/
theorem dedupFirstAux_cons_mem {seen : List String} {s : String}
    {rest : List String} (h : s ∈ seen) :
    dedupFirstAux seen (s :: rest) = dedupFirstAux seen rest := by
  unfold dedupFirstAux
  rw [if_pos h]
  cases rest <;> rfl

/-- Unfolding `dedupFirstAux` over an unseen head. -/
theorem dedupFirstAux_cons_not_mem {seen : List String} {s : String}
    {rest : List String} (h : s ∉ seen) :
    dedupFirstAux seen (s :: rest) = s :: dedupFirstAux (s :: seen) rest := by
  unfold dedupFirstAux
  rw [if_neg h]
  cases rest <;> rfl

/-- `dedupFirstAux` only looks at the membership of `seen`. -/
theorem dedupFirstAux_congr (l : List String) :
    ∀ (s1 s2 : List String), (∀ x, x ∈ s1 ↔ x ∈ s2) →
      dedupFirstAux s1 l = dedupFirstAux s2 l := by
  induction l with
  | nil => intro s1 s2 _; rfl
  | cons s rest ih =>
    intro s1 s2 hiff
    unfold dedupFirstAux
    by_cases hs : s ∈ s1
    · rw [if_pos hs, if_pos ((hiff s).mp hs)]
      exact ih s1 s2 hiff
    · rw [if_neg hs, if_neg (fun h2 => hs ((hiff s).mpr h2))]
      refine congrArg (s :: ·) (ih _ _ fun x => ?_)
      simp [List.mem_cons, hiff x]

/-- If a sha occurs in the list and is not yet seen, first-occurrence
deduplication keeps it. -/
theorem mem_dedupFirstAux {x : String} :
    ∀ (l seen : List String), x ∈ l → x ∉ seen →
      x ∈ dedupFirstAux seen l := by
  intro l
  induction l with
  | nil => intro seen hx _; exact absurd hx (List.not_mem_nil _)
  | cons s rest ih =>
    intro seen hx hs
    unfold dedupFirstAux
    by_cases hxs : x = s
    · rw [← hxs]
      rw [if_neg (hxs ▸ hs)]
      exact List.mem_cons_self _ _
    · have hxr : x ∈ rest := by
        rcases List.mem_cons.mp hx with h | h
        · exact absurd h hxs
        · exact h
      by_cases hss : s ∈ seen
      · rw [if_pos hss]
        exact ih seen hxr hs
      · rw [if_neg hss]
        refine List.mem_cons_of_mem _ (ih _ hxr ?_)
        intro hc
        rcases List.mem_cons.mp hc with h | h
        · exact hxs h
        · exact hs h

/-- The keys accumulated by the `commitMap.set` fold are the seen keys
followed by the first occurrences of the remaining shas. -/
theorem foldl_mapSet_keys {f : Nat × Commit → Node} :
    ∀ (l : List (Nat × Commit)) (acc : List (String × Node)),
      (l.foldl (fun m q => mapSet m q.2.sha (f q)) acc).map
        (fun p => p.1) =
      acc.map (fun p => p.1) ++
        dedupFirstAux (acc.map (fun p => p.1)) (l.map (fun q => q.2.sha)) := by
  intro l
  induction l with
  | nil => intro acc; simp [dedupFirstAux]
  | cons q l ih =>
    intro acc
    rw [List.foldl_cons, ih, mapSet_keys]
    have hmem : acc.any (fun p => p.1 = q.2.sha) = true ↔
        q.2.sha ∈ acc.map (fun p => p.1) := by
      rw [List.any_eq_true]
      constructor
      · rintro ⟨r, hr, hrq⟩
        have : r.1 = q.2.sha := of_decide_eq_true hrq
        rw [← this]
        exact List.mem_map_of_mem _ hr
      · intro h
        obtain ⟨r, hr, hrq⟩ := List.mem_map.mp h
        exact ⟨r, hr, by simp [hrq]⟩
    by_cases hany : acc.any (fun p => p.1 = q.2.sha)
    · rw [if_pos hany, List.map_cons, dedupFirstAux_cons_mem (hmem.mp hany)]
    · rw [if_neg hany, List.map_cons,
        dedupFirstAux_cons_not_mem (fun h => hany (hmem.mpr h)),
        List.append_assoc, List.singleton_append]
      refine congrArg _ (congrArg _ (dedupFirstAux_congr _ _ _ fun x => ?_))
      simp [List.mem_append, List.mem_cons, or_comm]

/-- The key list of `initNodes` is the first-occurrence deduplication of
the window's sha list. -/
theorem initNodes_keys (raw : List Commit) :
    (GraphMain.initNodes raw).map (fun p => p.1) =
      dedupFirst (raw.map (fun c => c.sha)) := by
  unfold GraphMain.initNodes dedupFirst
  rw [foldl_mapSet_keys]
  have henum : raw.enum.map (fun q => q.2.sha) =
      raw.map (fun c => c.sha) := by
    have := List.enum_map_snd raw
    calc raw.enum.map (fun q => q.2.sha) =
        (raw.enum.map Prod.snd).map (fun c => c.sha) := by
          rw [List.map_map]; rfl
      _ = raw.map (fun c => c.sha) := by rw [this]
  rw [henum]
  rfl

/-- `applyLanes` never changes a stored node's sha. -/
theorem applyLanes_map_sha (st : GraphMain.GState)
    (m : List (String × Node)) :
    (GraphMain.applyLanes st m).map (fun p => p.2.sha) =
      m.map (fun p => p.2.sha) := by
  unfold GraphMain.applyLanes
  rw [List.map_map]
  apply List.map_congr_left
  intro q _
  simp only [Function.comp]
  cases ctlGet st.commitToLane q.1 with
  | none => rfl
  | some l => rfl

/-- `attachBranches` never changes a stored node's sha. -/
theorem attachBranches_map_sha (bs : List Branch) :
    ∀ (m : List (String × Node)),
      (GraphMain.attachBranches m bs).map (fun p => p.2.sha) =
        m.map (fun p => p.2.sha) := by
  induction bs with
  | nil => intro m; rfl
  | cons b bs ih =>
    intro m
    show (GraphMain.attachBranches
      (m.map (fun p =>
        if p.1 = b.sha then
          (p.1, { p.2 with branches := p.2.branches ++ [b.name] })
        else p)) bs).map (fun p => p.2.sha) = m.map (fun p => p.2.sha)
    rw [ih, List.map_map]
    apply List.map_congr_left
    intro q _
    simp only [Function.comp]
    by_cases hqb : q.1 = b.sha
    · rw [if_pos hqb]
    · rw [if_neg hqb]

/-- C6 (amended): the builder returns exactly one node per distinct sha,
in first-occurrence order (a duplicated sha never yields a second node, and
no failure occurs — the builder is total). -/
theorem c6_one_node_per_sha_first_occurrence (raw : List Commit)
    (bs : List Branch) :
    (GraphMain.processCommitsForGraph raw bs).map (fun n => n.sha) =
      dedupFirst (raw.map (fun c => c.sha)) := by
  by_cases hraw : raw.isEmpty
  · have h0 : raw = [] := List.isEmpty_iff.mp hraw
    rw [GraphMain.processCommitsForGraph, if_pos hraw, h0]
    rfl
  · rw [GraphMain.processCommitsForGraph, if_neg hraw, List.map_map]
    have hsha : (GraphMain.attachBranches
        (GraphMain.applyLanes (GraphMain.lanePass raw)
          (GraphMain.initNodes raw)) bs).map (fun p => p.2.sha) =
        (GraphMain.initNodes raw).map (fun p => p.2.sha) := by
      rw [attachBranches_map_sha, applyLanes_map_sha]
    have hkeys : (GraphMain.initNodes raw).map (fun p => p.2.sha) =
        (GraphMain.initNodes raw).map (fun p => p.1) :=
      List.map_congr_left fun q hq => (initNodes_mem hq).2
    calc (GraphMain.attachBranches
        (GraphMain.applyLanes (GraphMain.lanePass raw)
          (GraphMain.initNodes raw)) bs).map ((fun n => n.sha) ∘
            (fun p => p.2)) =
        (GraphMain.initNodes raw).map (fun p => p.2.sha) := hsha
      _ = (GraphMain.initNodes raw).map (fun p => p.1) := hkeys
      _ = dedupFirst (raw.map (fun c => c.sha)) := initNodes_keys raw

/-- A present key makes `mapGet` succeed. -/
theorem mapGet_isSome {m : List (String × Node)} {k : String}
    (h : k ∈ m.map (fun p => p.1)) : (mapGet m k).isSome = true := by
  unfold mapGet
  rw [Option.isSome_map']
  rw [List.find?_isSome]
  obtain ⟨r, hr, hrk⟩ := List.mem_map.mp h
  exact ⟨r, hr, by simp [hrk]⟩

/-- The checked fold equals the unchecked fold whenever every processed
sha has a node in the map. -/
theorem foldlM_stepE_ok (raw : List Commit) (m0 : List (String × Node)) :
    ∀ (l : List Commit) (st : GraphMain.GState),
      (∀ c ∈ l, (mapGet m0 c.sha).isSome = true) →
      l.foldlM (GraphMain.stepE raw m0) st =
        Except.ok (l.foldl (GraphMain.step raw) st) := by
  intro l
  induction l with
  | nil => intro st _; rfl
  | cons c l ih =>
    intro st hall
    rw [List.foldlM_cons]
    have hsome := hall c (List.mem_cons_self _ _)
    obtain ⟨v, hv⟩ := Option.isSome_iff_exists.mp hsome
    rw [List.foldl_cons]
    show (GraphMain.stepE raw m0 st c).bind _ = _
    unfold GraphMain.stepE
    rw [hv]
    exact ih (GraphMain.step raw st c)
      (fun d hd => hall d (List.mem_cons_of_mem _ hd))

/-- C7: the builder always terminates with a node list; the non-null
assertion `commitMap.get(commit.sha)!` can never fail, so the checked
builder returns `ok` of the unchecked builder's output on every input. -/
theorem c7_build_never_errors (raw : List Commit) (bs : List Branch) :
    GraphMain.processCommitsForGraphE raw bs =
      Except.ok (GraphMain.processCommitsForGraph raw bs) := by
  by_cases hraw : raw.isEmpty
  · rw [GraphMain.processCommitsForGraphE, if_pos hraw,
      GraphMain.processCommitsForGraph, if_pos hraw]
  · rw [GraphMain.processCommitsForGraphE, if_neg hraw,
      GraphMain.processCommitsForGraph, if_neg hraw]
    have hok : GraphMain.lanePassE raw (GraphMain.initNodes raw) =
        Except.ok (GraphMain.lanePass raw) := by
      unfold GraphMain.lanePassE GraphMain.lanePass
      refine foldlM_stepE_ok raw _ raw.reverse _ fun c hc => ?_
      refine mapGet_isSome ?_
      rw [initNodes_keys]
      refine mem_dedupFirstAux _ _ ?_ (List.not_mem_nil _)
      exact List.mem_map_of_mem _ (List.mem_reverse.mp hc)
    simp only [hok, Except.map]

/-- An emitted edge carries the emitting node's sha as source and the
parent-list entry as target. -/
theorem route_emit_shas {ns : List Node} {n : Node} {q : String} {e : Edge}
    (h : (match ns.find? (fun x => x.sha = q) with
      | none => none
      | some pn =>
        some (⟨n.sha, q,
          if n.lane = pn.lane then EdgeKind.continuation
          else EdgeKind.branchOrMerge, GraphMain.edgeColor n⟩ : Edge)) =
      some e) :
    e.fromSha = n.sha ∧ e.toSha = q := by
  cases hf : ns.find? (fun x => x.sha = q) with
  | none => rw [hf] at h; cases h
  | some pn =>
    rw [hf] at h
    injection h with h'
    rw [← h']
    exact ⟨rfl, rfl⟩

/-- Edge count contributed by one node's parent list: one edge per
occurrence of the target sha when it has a node, none otherwise. -/
theorem route_emit_count (ns : List Node) (c : Node) (p : String) :
    ∀ ps : List String,
      (ps.filterMap (fun q =>
        match ns.find? (fun x => x.sha = q) with
        | none => none
        | some pn =>
          some (⟨c.sha, q,
            if c.lane = pn.lane then EdgeKind.continuation
            else EdgeKind.branchOrMerge, GraphMain.edgeColor c⟩ :
              Edge))).countP
        (fun e => e.fromSha == c.sha && e.toSha == p) =
      if p ∈ ns.map (fun x => x.sha) then ps.count p else 0 := by
  intro ps
  induction ps with
  | nil => simp
  | cons q qs ih =>
    cases hf : ns.find? (fun x => x.sha = q) with
    | none =>
      have hq : q ∉ ns.map (fun x => x.sha) := by
        intro hqm
        obtain ⟨x, hx, hxq⟩ := List.mem_map.mp hqm
        exact List.find?_eq_none.mp hf x hx (by simp [hxq])
      rw [List.filterMap_cons_none (by rw [hf]), ih]
      by_cases hp : p ∈ ns.map (fun x => x.sha)
      · have hqp : (q == p) = false := by
          rw [beq_eq_false_iff_ne]
          intro he
          rw [he] at hq
          exact hq hp
        rw [if_pos hp, if_pos hp, List.count_cons, hqp]
        simp
      · rw [if_neg hp, if_neg hp]
    | some pn =>
      have hq : q ∈ ns.map (fun x => x.sha) := by
        have hpnm : pn ∈ ns := List.mem_of_find?_eq_some hf
        have hb := List.find?_some hf
        rw [decide_eq_true_eq] at hb
        rw [← hb]
        exact List.mem_map_of_mem _ hpnm
      rw [List.filterMap_cons_some (by rw [hf]), List.countP_cons, ih]
      by_cases hqp : q = p
      · subst hqp
        rw [if_pos hq, if_pos hq, List.count_cons]
        simp
      · have hqpb : (q == p) = false := beq_eq_false_iff_ne.mpr hqp
        by_cases hp : p ∈ ns.map (fun x => x.sha)
        · rw [if_pos hp, if_pos hp, List.count_cons, hqpb]
          simp [hqp]
        · rw [if_neg hp, if_neg hp]
          simp [hqp]

/-- Every routed edge's source sha is the sha of some node of the list it
was emitted from. -/
theorem route_from_mem {ns l : List Node} {e : Edge}
    (h : e ∈ l.flatMap (fun n => n.parents.filterMap (fun q =>
      match ns.find? (fun x => x.sha = q) with
      | none => none
      | some pn =>
        some (⟨n.sha, q,
          if n.lane = pn.lane then EdgeKind.continuation
          else EdgeKind.branchOrMerge, GraphMain.edgeColor n⟩ : Edge)))) :
    e.fromSha ∈ l.map (fun n => n.sha) := by
  obtain ⟨n, hn, he⟩ := List.mem_flatMap.mp h
  obtain ⟨q, _, hqe⟩ := List.mem_filterMap.mp he
  rw [(route_emit_shas hqe).1]
  exact List.mem_map_of_mem _ hn

/-- Edge count over a laid-out node list with duplicate-free shas: the
edges from node `c` to sha `p` number one per occurrence of `p` in `c`'s
parent list when `p` has a node, zero when it has none. -/
theorem route_count_general (ns : List Node) (c : Node) (p : String) :
    ∀ l : List Node, ((l.map (fun n => n.sha)).Nodup) → c ∈ l →
      ((l.flatMap (fun n => n.parents.filterMap (fun q =>
        match ns.find? (fun x => x.sha = q) with
        | none => none
        | some pn =>
          some (⟨n.sha, q,
            if n.lane = pn.lane then EdgeKind.continuation
            else EdgeKind.branchOrMerge, GraphMain.edgeColor n⟩ :
              Edge)))).countP
        (fun e => e.fromSha == c.sha && e.toSha == p)) =
      if p ∈ ns.map (fun x => x.sha) then c.parents.count p else 0 := by
  intro l
  induction l with
  | nil => intro _ hc; exact absurd hc (List.not_mem_nil _)
  | cons a l ih =>
    intro hnd hc
    rw [List.map_cons, List.nodup_cons] at hnd
    rw [List.flatMap_cons, List.countP_append]
    rcases List.mem_cons.mp hc with rfl | hcl
    · have hrest : (l.flatMap (fun n => n.parents.filterMap (fun q =>
          match ns.find? (fun x => x.sha = q) with
          | none => none
          | some pn =>
            some (⟨n.sha, q,
              if n.lane = pn.lane then EdgeKind.continuation
              else EdgeKind.branchOrMerge, GraphMain.edgeColor n⟩ :
                Edge)))).countP
          (fun e => e.fromSha == c.sha && e.toSha == p) = 0 := by
        rw [List.countP_eq_zero]
        intro e he hpred
        rw [Bool.and_eq_true, beq_iff_eq, beq_iff_eq] at hpred
        have hef := route_from_mem he
        rw [hpred.1] at hef
        exact hnd.1 hef
      rw [hrest, route_emit_count ns c p c.parents, Nat.add_zero]
    · have hhead : (a.parents.filterMap (fun q =>
          match ns.find? (fun x => x.sha = q) with
          | none => none
          | some pn =>
            some (⟨a.sha, q,
              if a.lane = pn.lane then EdgeKind.continuation
              else EdgeKind.branchOrMerge, GraphMain.edgeColor a⟩ :
                Edge))).countP
          (fun e => e.fromSha == c.sha && e.toSha == p) = 0 := by
        rw [List.countP_eq_zero]
        intro e he hpred
        rw [Bool.and_eq_true, beq_iff_eq, beq_iff_eq] at hpred
        obtain ⟨q, _, hqe⟩ := List.mem_filterMap.mp he
        have hsha := (route_emit_shas hqe).1
        rw [hpred.1] at hsha
        exact hnd.1 (hsha ▸ List.mem_map_of_mem _ hcl)
      rw [hhead, ih hnd.2 hcl, Nat.zero_add]

/-- Classification of a routed edge between two nodes of a duplicate-free
laid-out set: `continuation` exactly when the lanes agree. -/
theorem route_kind_iff {ns : List Node}
    (hnd : (ns.map (fun n => n.sha)).Nodup) {e : Edge}
    (he : e ∈ GraphMain.routeEdges ns) {c d : Node} (hc : c ∈ ns)
    (hd : d ∈ ns) (hf : e.fromSha = c.sha) (ht : e.toSha = d.sha) :
    (e.kind = EdgeKind.continuation ↔ c.lane = d.lane) := by
  obtain ⟨n, hn, he2⟩ := List.mem_flatMap.mp he
  obtain ⟨q, _, hqe⟩ := List.mem_filterMap.mp he2
  cases hfind : ns.find? (fun x => x.sha = q) with
  | none => rw [hfind] at hqe; cases hqe
  | some pn =>
    rw [hfind] at hqe
    injection hqe with hqe
    have hpn_mem : pn ∈ ns := List.mem_of_find?_eq_some hfind
    have hpn_sha := List.find?_some hfind
    rw [decide_eq_true_eq] at hpn_sha
    have hnsha : n.sha = c.sha := by
      rw [← hqe] at hf
      exact hf
    have hdsha : pn.sha = d.sha := by
      rw [← hqe] at ht
      rw [hpn_sha]
      exact ht
    have hn_c : n = c := List.inj_on_of_nodup_map hnd hn hc hnsha
    have hpn_d : pn = d := List.inj_on_of_nodup_map hnd hpn_mem hd hdsha
    rw [← hqe, ← hn_c, ← hpn_d]
    by_cases hl : n.lane = pn.lane
    · simp [hl]
    · simp [hl]

/-- C4 (amended): over a laid-out node set with duplicate-free shas,
routing emits exactly one edge per occurrence of a parent sha in a child's
parent list when that sha has a node (so exactly one per (child, parent)
pair when parent lists are duplicate-free), no edge when the parent sha
has no node, and an edge is `continuation` precisely when the two nodes'
lanes agree. -/
theorem c4_route_per_parent_entry (ns : List Node) (c d : Node)
    (p : String) (e : Edge) (hnd : (ns.map (fun n => n.sha)).Nodup) :
    (c ∈ ns →
      (GraphMain.routeEdges ns).countP
        (fun e => e.fromSha == c.sha && e.toSha == p) =
        if p ∈ ns.map (fun n => n.sha) then c.parents.count p else 0) ∧
    (e ∈ GraphMain.routeEdges ns → c ∈ ns → d ∈ ns → e.fromSha = c.sha →
      e.toSha = d.sha → (e.kind = EdgeKind.continuation ↔
        c.lane = d.lane)) :=
  ⟨fun hc => route_count_general ns c p ns hnd hc,
    fun he hc hd hf ht => route_kind_iff hnd he hc hd hf ht⟩

/-- Witness for C4's theorem at the spec's truncated-window scenario: the
single node `x` references the absent sha `"missing"`, and no edge is
emitted for it. -/
theorem c4_route_per_parent_entry_witness :
    (((GraphMain.processCommitsForGraph scnTrunc []).map
        (fun n => n.sha)).Nodup ∧
      (⟨"x", ["missing"], 0, 0, 0, []⟩ : Node) ∈
        GraphMain.processCommitsForGraph scnTrunc []) ∧
    (GraphMain.routeEdges (GraphMain.processCommitsForGraph scnTrunc
        [])).countP
      (fun e => e.fromSha == (⟨"x", ["missing"], 0, 0, 0, []⟩ : Node).sha &&
        e.toSha == "missing") =
      (if "missing" ∈ (GraphMain.processCommitsForGraph scnTrunc []).map
          (fun n => n.sha) then
        (⟨"x", ["missing"], 0, 0, 0, []⟩ : Node).parents.count "missing"
      else 0) :=
  ⟨⟨by decide, by decide⟩,
    (c4_route_per_parent_entry (GraphMain.processCommitsForGraph scnTrunc [])
      ⟨"x", ["missing"], 0, 0, 0, []⟩ ⟨"x", ["missing"], 0, 0, 0, []⟩
      "missing" ⟨"", "", EdgeKind.continuation, ""⟩ (by decide)).1
      (by decide)⟩

/-- The `for`/`break` scan of the simple variant always yields lane 0 when
at most one lane exists (including the fall-through case where the only
lane already contains the sha). -/
theorem findLane_zero (lanes : List (List String))
    (h : lanes.length ≤ 1) (s : String) :
    GraphSimple.findLane lanes s = 0 := by
  cases lanes with
  | nil => rfl
  | cons l rest =>
    have hrest : rest = [] := by simpa using h
    subst hrest
    simp only [GraphSimple.findLane, List.findIdx?_cons, List.findIdx?_nil]
    split
    · rfl
    · rfl

/-- Invariant of the simple variant's fold: the lane table never grows
past one lane and every stored node has lane 0. -/
theorem simple_fold_invariant :
    ∀ (l : List (Nat × Commit))
      (acc : List (List String) × List (String × Node)),
      acc.1.length ≤ 1 → (∀ p ∈ acc.2, p.2.lane = 0) →
      (l.foldl GraphSimple.stepSimple acc).1.length ≤ 1 ∧
        (∀ p ∈ (l.foldl GraphSimple.stepSimple acc).2, p.2.lane = 0) := by
  intro l
  induction l with
  | nil => intro acc h1 h2; exact ⟨h1, h2⟩
  | cons q l ih =>
    intro acc h1 h2
    rw [List.foldl_cons]
    have hlane : GraphSimple.findLane acc.1 q.2.sha = 0 :=
      findLane_zero acc.1 h1 q.2.sha
    have hstep : GraphSimple.stepSimple acc q =
        ((if 0 = acc.1.length then acc.1 ++ [[]] else acc.1).set 0
            (((if 0 = acc.1.length then acc.1 ++ [[]] else acc.1).getD 0
              []) ++ [q.2.sha]),
          mapSet acc.2 q.2.sha
            ⟨q.2.sha, q.2.parents, 0 * 40, q.1 * 80, 0, []⟩) := by
      unfold GraphSimple.stepSimple
      dsimp only
      rw [hlane]
    rw [hstep]
    refine ih _ ?_ ?_
    · show ((if 0 = acc.1.length then acc.1 ++ [[]] else acc.1).set 0
        _).length ≤ 1
      rw [List.length_set]
      by_cases h0 : 0 = acc.1.length
      · rw [if_pos h0, List.length_append, ← h0]
        simp
      · rw [if_neg h0]
        exact h1
    · intro p hp
      rcases mem_mapSet hp with hold | hnew
      · exact h2 p hold
      · rw [hnew]

/-- C10: the superseded simple variant puts every commit on lane 0 (for
any input, duplicate-free or not), and its layout differs from the
reservation-based variant's on the two-root window `ex5`, where the
latter assigns lane 1 to the side chain. -/
theorem c10_simple_variant_single_lane :
    (∀ (raw : List Commit) (bs : List Branch),
      (GraphSimple.processCommitsForGraph raw bs).all
        (fun n => n.lane == 0) = true) ∧
    (GraphMain.processCommitsForGraph ex5 []).map (fun n => n.lane) ≠
      (GraphSimple.processCommitsForGraph ex5 []).map (fun n => n.lane) := by
  constructor
  · intro raw bs
    rw [List.all_eq_true]
    intro n hn
    rw [GraphSimple.processCommitsForGraph] at hn
    obtain ⟨p, hp, hpn⟩ := List.mem_map.mp hn
    have hmem : p.2.lane ∈ (GraphMain.attachBranches
        (raw.enum.foldl GraphSimple.stepSimple ([], [])).2 bs).map
        (fun p => p.2.lane) := List.mem_map_of_mem _ hp
    rw [attachBranches_map_lane] at hmem
    obtain ⟨q, hq, hq0⟩ := List.mem_map.mp hmem
    have hz := (simple_fold_invariant raw.enum ([], []) (by simp)
      (fun r hr => absurd hr (List.not_mem_nil _))).2 q hq
    rw [← hpn]
    have : p.2.lane = 0 := by rw [← hq0, hz]
    simp [this]
  · decide
